import Mathlib

/-!
# Verification of the SymmetricAlgebra crystal-basis core

This file is a shallow embedding of the core of the SymmetricAlgebra
repository (`src/crystal.ts`, `src/util.ts`, `src/algebra.ts`) in Lean 4,
together with proofs and refutations of the specification claims about it.

Modelling conventions:
* JavaScript number arrays holding crystal vertices, partitions and words are
  modelled as `List Nat` (every value actually stored by the program is a
  non-negative integer; the only places where intermediate JavaScript values
  could be negative, namely the recogniser's `num - 1` index arithmetic and
  the `size` counter of `crystal_f`, are modelled without `Nat` truncation:
  the recogniser's branches are phrased with additions on the right hand
  side, and `size` is an `Int`).
* A thrown `assertOrCrash` exception is modelled as a distinguished value
  (`none`, or `RunResult.crash`).
* The unbounded `for (;;)` loop of `visitGLnCrystal` is modelled as a
  fuel-indexed step function; the fuel bound is proved sufficient whenever
  the loop actually terminates.  Running out of fuel is reported through the
  `Bool` flag of `RunResult.ran`.
* The `seen` membership object of the traversal is keyed by the string
  rendering of the vertex, which is injective on lists of naturals; it is
  modelled as a list of vertices with decidable membership.
* The floating point arithmetic of `dimensionInGL` is modelled with exact
  rational arithmetic followed by `Math.round` (round half towards plus
  infinity); on the small concrete inputs used below every floating point
  operation of the source is exact, so the models agree there.
-/

/-- A crystal vertex: a word of letters, each letter a positive integer. -/
abbrev Vertex := List Nat

/-- Compare two lists of numbers in lexicographic order, from `util.ts`:
returns `-1`, `0` or `1`. -/
def compareLists : List Nat → List Nat → Int
  | [], [] => 0
  | [], _ :: _ => -1
  | _ :: _, [] => 1
  | a :: as, b :: bs =>
    if a < b then -1
    else if b < a then 1
    else compareLists as bs

/-- Auxiliary for `isPartition`: the adjacent-pairs loop
`for i in [1, len): nums[i-1] >= nums[i]`. -/
def weaklyDecr : List Nat → Bool
  | [] => true
  | [_] => true
  | a :: b :: rest => decide (b ≤ a) && weaklyDecr (b :: rest)

/-- A partition check, from `crystal.ts`: weakly decreasing, and the last
entry (if present) is positive. -/
def isPartition (nums : List Nat) : Bool :=
  weaklyDecr nums && decide (1 ≤ nums.getLastD 1)

/-- One step of the lattice-word recogniser, the body of the `for` loop of
`latticeWordToMaybePartition` in `crystal.ts`.  The source branches on
`num - 1 == partition.length`, `num == 1`, `num - 1 > partition.length`,
and otherwise on `partition[num - 2] > partition[num - 1]`; in the final
branch a letter `num ≤ 0` reads `undefined` at a negative index in
JavaScript, and the comparison is then false, which the guard `2 ≤ num`
reproduces. -/
def lwStep (partition : List Nat) (num : Nat) : Option (List Nat) :=
  if num = partition.length + 1 then some (partition ++ [1])
  else if num = 1 then
    match partition with
    | [] => none  -- unreachable: if the partition is empty, 1 hits the first branch
    | p0 :: rest => some ((p0 + 1) :: rest)
  else if partition.length + 1 < num then none
  else if 2 ≤ num ∧ partition.getD (num - 1) 0 < partition.getD (num - 2) 0 then
    some (partition.set (num - 1) (partition.getD (num - 1) 0 + 1))
  else none

/-- The lattice-word recogniser from `crystal.ts`: fold the word, starting
from the partition built `sofar`; `none` models the early `return null`. -/
def latticeWordToMaybePartition (sofar : List Nat) (word : List Nat) : Option (List Nat) :=
  match word with
  | [] => some sofar
  | num :: rest =>
    match lwStep sofar num with
    | none => none
    | some p => latticeWordToMaybePartition p rest

/-- `hwToPartition` from `crystal.ts`: `none` models the `assertOrCrash`
throw on a vertex that is not a lattice word. -/
def hwToPartition (v : Vertex) : Option (List Nat) :=
  latticeWordToMaybePartition [] v

/-- `isLatticeWord` from `crystal.ts`. -/
def isLatticeWord (v : Vertex) : Bool :=
  (latticeWordToMaybePartition [] v).isSome

/-- Loop of the two-integer `crystal_f` of `crystal.ts` (lines 308-324):
`bottom` is what would sit at the bottom of the bracket-matching stack and
`size` is the height of that stack (which may go negative). `j` is the index
of the first letter of the remaining suffix `v`. -/
def crystal_fGo (i : Nat) : List Nat → Nat → Nat → Int → Nat × Int
  | [], _, bottom, size => (bottom, size)
  | a :: rest, j, bottom, size =>
    if a = i then
      if size ≤ 0 then crystal_fGo i rest (j + 1) j 1
      else crystal_fGo i rest (j + 1) bottom (size + 1)
    else if a = i + 1 then crystal_fGo i rest (j + 1) bottom (size - 1)
    else crystal_fGo i rest (j + 1) bottom size

/-- The two-integer `crystal_f` of `crystal.ts`: returns the index that
would be modified by the arrow `f_i`, or `-1` if the vertex is killed. -/
def crystal_f (i : Nat) (v : Vertex) : Int :=
  match crystal_fGo i v 0 0 0 with
  | (bottom, size) => if size ≤ 0 then -1 else (bottom : Int)

/-- Loop of the stack-based `crystal_f` (the explicit bracket-matching
reference, `crystal.ts` lines 80-95): push the current index for a letter
`i`, pop for a letter `i+1` (a pop of the empty stack is a no-op, as for a
JavaScript array).  The stack grows at the tail, so its head is the bottom
of the stack. -/
def unmatchedOpenersGo (i : Nat) : List Nat → Nat → List Nat → List Nat
  | [], _, stack => stack
  | a :: rest, j, stack =>
    if a = i then unmatchedOpenersGo i rest (j + 1) (stack ++ [j])
    else if a = i + 1 then unmatchedOpenersGo i rest (j + 1) stack.dropLast
    else unmatchedOpenersGo i rest (j + 1) stack

/-- The positions of the never-closed openers (letters equal to `i`), in
scan order: the final contents of the bracket-matching stack. -/
def unmatchedOpeners (i : Nat) (v : Vertex) : List Nat :=
  unmatchedOpenersGo i v 0 []

/-- The stack-based `crystal_f` of the original `crystal.ts` (lines 80-95):
`null` when the stack is empty, otherwise a copy of the vertex with the
letter at the bottom-of-stack position raised to `i + 1`. -/
def crystal_fStack (i : Nat) (v : Vertex) : Option Vertex :=
  match unmatchedOpeners i v with
  | [] => none
  | modify :: _ => some (v.set modify (i + 1))

/-- `vertexHeight` from `crystal.ts`: the maximum letter (0 when empty). -/
def vertexHeight (v : Vertex) : Nat :=
  v.foldl max 0

/-- `hookLength` from `crystal.ts`: the `while` loop counts the consecutive
rows below row `i` that are longer than `j`. -/
def hookLength (part : List Nat) (i j : Nat) : Nat :=
  ((part.drop (i + 1)).takeWhile (fun r => j < r)).length + part.getD i 0 - j

/-- The numerator of the double product of `dimensionInGL`: the product of
the factors `n + j - (i + 1)` over all cells (the source accumulates the
quotients in IEEE doubles; here the exact rational is carried as a
numerator and a denominator). -/
def dimensionNum (n : Nat) (part : List Nat) : Int :=
  ((List.range part.length).map (fun i =>
    ((List.range (part.getD i 0)).map (fun jm1 =>
      ((n : Int) + (((jm1 : Nat) + 1 : Nat) : Int) - (((i : Nat) + 1 : Nat) : Int)))).prod)).prod

/-- The denominator of the double product of `dimensionInGL`: the product
of all hook lengths (positive for a valid partition). -/
def dimensionDen (part : List Nat) : Nat :=
  ((List.range part.length).map (fun i =>
    ((List.range (part.getD i 0)).map (fun jm1 => hookLength part i jm1)).prod)).prod

/-- The rounded dimension used internally by `tensorPartitions` (after its
own `isPartition` assertion has passed).  JavaScript `Math.round(q)` is
`⌊q + 1/2⌋`, and for `q = num/den` with `den > 0` that is the floor
division `⌊(2 num + den) / (2 den)⌋`. -/
def dimensionRound (n : Nat) (part : List Nat) : Int :=
  Int.fdiv (2 * dimensionNum n part + (dimensionDen part : Int))
    (2 * (dimensionDen part : Int))

/-- `dimensionInGL` from `crystal.ts`: `none` models the `assertOrCrash` on
a non-partition. -/
def dimensionInGL (n : Nat) (part : List Nat) : Option Int :=
  if isPartition part then some (dimensionRound n part) else none

/-- The double loop of `partitionToHw`: one run of letters `i + 1` of
length `part[i]` per row `i`. -/
def hwWord (part : List Nat) : List Nat :=
  (List.range part.length).flatMap (fun i => List.replicate (part.getD i 0) (i + 1))

/-- `partitionToHw` from `crystal.ts`: `none` models the `assertOrCrash` on
a non-partition. -/
def partitionToHw (part : List Nat) : Option Vertex :=
  if isPartition part then some (hwWord part) else none

/-- The mutable state of the `for (;;)` loop of `visitGLnCrystal`:
the working vertex, the two parallel stacks (stored top-first; the source
pushes and pops at the end of a JavaScript array), the operator cursor, the
membership set (stored most-recent-first) and the list of vertices passed to
the visitor so far, in visit order. -/
structure DfsState where
  mutVert : List Nat
  mutStack : List Nat
  expStack : List Nat
  toExpand : Nat
  seen : List (List Nat)
  acc : List (List Nat)
deriving Repr, DecidableEq

/-- The vertex obtained by applying the found edge in place:
`mutVert[maybeIdx] += 1` with `maybeIdx = crystal_f(toExpand, mutVert)`. -/
def pushVert (s : DfsState) : List Nat :=
  s.mutVert.set (crystal_f s.toExpand s.mutVert).toNat
    (s.mutVert.getD (crystal_f s.toExpand s.mutVert).toNat 0 + 1)

/-- One iteration of the loop of `visitGLnCrystal`: `none` means the
`break` was taken. -/
def dfsStep (n : Nat) (s : DfsState) : Option DfsState :=
  if s.toExpand = n then
    match s.mutStack with
    | [] => none
    | j :: ms =>
      match s.expStack with
      | [] => none  -- unreachable: the two stacks always have equal length
      | e :: es =>
        some { s with
          mutVert := s.mutVert.set j (s.mutVert.getD j 0 - 1)
          mutStack := ms
          expStack := es
          toExpand := e }
  else if crystal_f s.toExpand s.mutVert < 0 then
    some { s with toExpand := s.toExpand + 1 }
  else if pushVert s ∈ s.seen then
    some { s with toExpand := s.toExpand + 1 }
  else
    some { s with
      mutVert := pushVert s
      seen := pushVert s :: s.seen
      acc := s.acc ++ [pushVert s]
      mutStack := (crystal_f s.toExpand s.mutVert).toNat :: s.mutStack
      expStack := (s.toExpand + 1) :: s.expStack
      toExpand := 1 }

/-- Run the loop for at most `fuel` iterations.  The `Bool` is `true` when
the loop took its `break` within the allotted fuel. -/
def dfsRun (n : Nat) : Nat → DfsState → DfsState × Bool
  | 0, s => (s, false)
  | fuel + 1, s =>
    match dfsStep n s with
    | none => (s, true)
    | some s2 => dfsRun n fuel s2

/-- The state at the top of the loop of `visitGLnCrystal`: the start vertex
has already been recorded as seen and visited. -/
def initState (start : List Nat) : DfsState :=
  ⟨start, [], [], 1, [start], [start]⟩

/-- Fuel that is proved sufficient for the loop whenever it terminates at
all (theorem `dfsRun_completes` below). -/
def fuelBound (n : Nat) (start : List Nat) : Nat :=
  (n + 2) * (n + 1) ^ start.length + n + 1

/-- Outcome of one call of `visitGLnCrystal`: `crash` models a thrown
`assertOrCrash`; `ran acc completed` gives the list of vertices passed to
the visitor, and whether the loop reached its `break` (when `completed` is
`false` the source loops forever, every visitor call it ever makes being
recorded in `acc`). -/
inductive RunResult where
  | crash : RunResult
  | ran : List (List Nat) → Bool → RunResult
deriving Repr, DecidableEq

/-- `visitGLnCrystal` from `crystal.ts`.  The visitor is modelled by the
returned visit list: the source's visitor is only ever used to accumulate a
pure function of the visited vertex. -/
def visitGLnCrystal (n : Nat) (start : Vertex) : RunResult :=
  if isLatticeWord start = true ∧ vertexHeight start ≤ n then
    match dfsRun n (fuelBound n start) (initState start) with
    | (s, completed) => .ran s.acc completed
  else .crash

/-- `expandInGL` from `crystal.ts`: collect a copy of every visited vertex.
`none` models the `assertOrCrash` inside `visitGLnCrystal`. -/
def expandInGL (n : Nat) (start : Vertex) : Option (List Vertex) :=
  match visitGLnCrystal n start with
  | .crash => none
  | .ran acc _ => some acc

/-- `tensorPartitions` from `crystal.ts`: swap so the smaller-dimension
factor is traversed, expand its crystal, and keep the vertices that extend
`partLeft` to a larger lattice word.  `none` models an `assertOrCrash`
(either the explicit one on entry, or the one raised inside
`visitGLnCrystal` when `partRight` has more than `n` rows). -/
def tensorPartitions (n : Nat) (partLeft partRight : List Nat) : Option (List (List Nat)) :=
  if 2 ≤ n ∧ isPartition partLeft = true ∧ isPartition partRight = true then
    let dim1 := dimensionRound n partLeft
    let dim2 := dimensionRound n partRight
    let (pL, pR) := if dim1 < dim2 then (partRight, partLeft) else (partLeft, partRight)
    match visitGLnCrystal n (hwWord pR) with
    | .crash => none
    | .ran acc _ => some (acc.filterMap (fun v => latticeWordToMaybePartition pL v))
  else none

/-- A Z-linear combination of partitions, from `algebra.ts`: a list of
(partition, multiplicity) pairs. -/
abbrev Linear := List (List Nat × Int)

/-- The sort order used by `algebraNormalise`: the source sorts ascending
with comparator `-compareLists(part1, part2)`, i.e. descending
lexicographically by partition. -/
def linRel (a b : List Nat × Int) : Prop :=
  0 ≤ compareLists a.1 b.1

instance : DecidableRel linRel := fun a b => by
  unfold linRel
  exact inferInstanceAs (Decidable (0 ≤ compareLists a.1 b.1))

/-- The accumulation loop of `algebraNormalise`.  The source appends to and
pops from the end of `result`; here `acc` holds `result` reversed (head =
most recently pushed), and is reversed back on return. -/
def normFoldGo (acc : Linear) : Linear → Linear
  | [] => acc.reverse
  | (part, mult) :: rest =>
    if mult = 0 then normFoldGo acc rest
    else
      match acc with
      | [] => normFoldGo [(part, mult)] rest
      | (p0, m0) :: accRest =>
        if compareLists p0 part ≠ 0 then normFoldGo ((part, mult) :: (p0, m0) :: accRest) rest
        else if m0 + mult = 0 then normFoldGo accRest rest
        else normFoldGo ((p0, m0 + mult) :: accRest) rest

/-- `algebraNormalise` from `algebra.ts`: sort descending by partition,
then merge equal partitions and drop zero multiplicities.  (JavaScript's
`Array.prototype.sort` is modelled by insertion sort; entries whose order
the comparator does not determine carry equal partitions, and the merge
loop is insensitive to their relative order.) -/
def algebraNormalise (lin : Linear) : Linear :=
  normFoldGo [] (List.insertionSort linRel lin)

/-- Strict descending order on entries of a linear combination. -/
def linGt (a b : List Nat × Int) : Prop :=
  0 < compareLists a.1 b.1

/-- The canonical form produced by `algebraNormalise`: strictly descending
by partition (hence duplicate-free) and free of zero multiplicities. -/
def LinearCanon (l : Linear) : Prop :=
  l.Pairwise linGt ∧ ∀ x ∈ l, x.2 ≠ 0

/-- Relation between the two-integer state and the explicit stack: either
the (possibly negative) stack height is not positive and the stack is
empty, or the height is positive, equals the stack length, and the
recorded bottom is the bottom (head) of the stack. -/
def StackRel (bottom : Nat) (size : Int) (stack : List Nat) : Prop :=
  (size ≤ 0 ∧ stack = []) ∨
    (0 < size ∧ (stack.length : Int) = size ∧ stack.head? = some bottom)

/-- Row-by-row reformulation of the double loop of `partitionToHw`:
one run of letters `k + 1` per remaining row. -/
def hwWordFrom : Nat → List Nat → List Nat
  | _, [] => []
  | k, r :: rest => List.replicate r (k + 1) ++ hwWordFrom (k + 1) rest

/-- The vertices reachable from `start` by finite compositions of the edge
operators `f_1 .. f_{n-1}`: one edge application changes the position
reported by `crystal_f` to the letter `i + 1`. -/
inductive ReachGL (n : Nat) (start : List Nat) : List Nat → Prop where
  | refl : ReachGL n start start
  | step (v : List Nat) (i j : Nat) :
      ReachGL n start v → 1 ≤ i → i < n → crystal_f i v = (j : Int) →
      ReachGL n start (v.set j (i + 1))

/-- Applying the edge `f_i` at the position the two-integer scan reports. -/
def applyEdge (i : Nat) (v : List Nat) : List Nat :=
  v.set (crystal_f i v).toNat (i + 1)

/-- Operator `i` is resolved at `v` relative to the membership set: either
there is no `f_i` edge out of `v`, or its target has been seen. -/
def ResolvedIn (seen : List (List Nat)) (i : Nat) (v : List Nat) : Prop :=
  crystal_f i v < 0 ∨ applyEdge i v ∈ seen

/-- The vertices along the current DFS path, from the working vertex up to
the root, reconstructed by undoing the recorded modifications. -/
def pathVerts : List Nat → List Nat → List (List Nat)
  | v, [] => [v]
  | v, j :: ms => v :: pathVerts (v.set j (v.getD j 0 - 1)) ms

/-- Well-formedness of the DFS path encoded by the two stacks: every vertex
on it is seen, every recorded step is a genuine `crystal_f` edge whose
resume cursor is the taken operator plus one, all operators before the
resume cursor are resolved at the parent, and the root of the path is
`start`. -/
def PathOk (n : Nat) (start : List Nat) (seen : List (List Nat)) :
    List Nat → List Nat → List Nat → Prop
  | v, [], [] => v = start
  | v, j :: ms, e :: es =>
    v ∈ seen ∧ 2 ≤ e ∧ e ≤ n ∧ v.getD j 0 = e ∧
      crystal_f (e - 1) (v.set j (v.getD j 0 - 1)) = ((j : Nat) : Int) ∧
      (∀ i, 1 ≤ i → i < e → ResolvedIn seen i (v.set j (v.getD j 0 - 1))) ∧
      PathOk n start seen (v.set j (v.getD j 0 - 1)) ms es
  | _, _, _ => False

/-- The loop invariant of `visitGLnCrystal` (for `1 ≤ n`). -/
structure DfsInv (n : Nat) (start : List Nat) (s : DfsState) : Prop where
  stacksLen : s.mutStack.length = s.expStack.length
  texp_pos : 1 ≤ s.toExpand
  texp_le : s.toExpand ≤ n
  seen_nodup : s.seen.Nodup
  acc_rev : s.acc.reverse = s.seen
  start_seen : start ∈ s.seen
  seen_reach : ∀ w ∈ s.seen, ReachGL n start w
  path_ok : PathOk n start s.seen s.mutVert s.mutStack s.expStack
  resolved_cur : ∀ i, 1 ≤ i → i < s.toExpand → ResolvedIn s.seen i s.mutVert
  closed_off : ∀ w ∈ s.seen,
    w ∈ pathVerts s.mutVert s.mutStack ∨ ∀ i, 1 ≤ i → i < n → ResolvedIn s.seen i w

/-- Base-`B` encoding of a word, used only to bound the size of the seen
set. -/
def encodeWord (B : Nat) : List Nat → Nat
  | [] => 0
  | a :: rest => a + B * encodeWord B rest

/-- The potential function that decreases on every loop iteration. -/
def expSum (n : Nat) (es : List Nat) : Nat :=
  es.foldr (fun e acc => (n - e) + 1 + acc) 0

def dfsPot (n L : Nat) (s : DfsState) : Nat :=
  (n + 2) * ((n + 1) ^ L - s.seen.length) + expSum n s.expStack + (n - s.toExpand)

/-! ## Generic list lemmas -/

theorem List.getD_set_self :
    ∀ (l : List Nat) (i x : Nat), i < l.length → (l.set i x).getD i 0 = x
  | _ :: _, 0, x, _ => rfl
  | a :: rest, i + 1, x, h =>
    List.getD_set_self rest i x (by simpa using h)

theorem List.getD_set_ne :
    ∀ (l : List Nat) (i k x : Nat), i ≠ k → (l.set i x).getD k 0 = l.getD k 0
  | [], _, _, _, _ => rfl
  | a :: rest, 0, 0, x, h => absurd rfl h
  | a :: rest, 0, k + 1, x, _ => rfl
  | a :: rest, i + 1, 0, x, _ => rfl
  | a :: rest, i + 1, k + 1, x, h =>
    List.getD_set_ne rest i k x (by omega)

theorem List.set_append_length :
    ∀ (q : List Nat) (x y : Nat), (q ++ [x]).set q.length y = q ++ [y]
  | [], _, _ => rfl
  | a :: rest, x, y => congrArg (a :: ·) (List.set_append_length rest x y)

theorem List.set_getD_self : ∀ (l : List Nat) (j : Nat), l.set j (l.getD j 0) = l
  | [], _ => rfl
  | a :: rest, 0 => rfl
  | a :: rest, j + 1 => by
    have h := List.set_getD_self rest j
    simp only [List.getD] at h ⊢
    simp only [List.set, List.getElem?_cons_succ]
    exact congrArg (a :: ·) h

theorem List.head?_dropLast_of_one_lt {α : Type} :
    ∀ (l : List α), 1 < l.length → l.dropLast.head? = l.head?
  | a :: b :: rest, _ => by
    simp [List.dropLast]

/-! ## The two crystal edge-operator implementations agree (claim C2) -/



theorem crystal_fGo_stackRel (i : Nat) :
    ∀ (v : List Nat) (j bottom : Nat) (size : Int) (stack : List Nat),
      StackRel bottom size stack →
      StackRel (crystal_fGo i v j bottom size).1 (crystal_fGo i v j bottom size).2
        (unmatchedOpenersGo i v j stack) := by
  intro v
  induction v with
  | nil => intro j bottom size stack h; simpa [crystal_fGo, unmatchedOpenersGo] using h
  | cons a rest ih =>
    intro j bottom size stack h
    by_cases hai : a = i
    · by_cases hsz : size ≤ 0
      · have hst : stack = [] := by
          rcases h with ⟨_, h⟩ | ⟨hpos, _, _⟩
          · exact h
          · exact absurd hsz (by omega)
        subst hst
        simp only [crystal_fGo, unmatchedOpenersGo, if_pos hai, if_pos hsz]
        exact ih (j + 1) j 1 [j] (Or.inr (by simp))
      · rcases h with ⟨h0, _⟩ | ⟨hpos, hlen, hhd⟩
        · exact absurd h0 hsz
        simp only [crystal_fGo, unmatchedOpenersGo, if_pos hai, if_neg hsz]
        refine ih (j + 1) bottom (size + 1) (stack ++ [j]) (Or.inr ⟨by omega, ?_, ?_⟩)
        · simp [← hlen]
        · cases stack with
          | nil => simp at hlen; omega
          | cons x xs => simpa using hhd
    · by_cases hai1 : a = i + 1
      · simp only [crystal_fGo, unmatchedOpenersGo, if_neg hai, if_pos hai1]
        refine ih (j + 1) bottom (size - 1) stack.dropLast ?_
        rcases h with ⟨h0, hst⟩ | ⟨hpos, hlen, hhd⟩
        · subst hst; exact Or.inl ⟨by omega, rfl⟩
        by_cases h1 : (1 : Int) < size
        · refine Or.inr ⟨by omega, ?_, ?_⟩
          · rw [List.length_dropLast]
            omega
          · rw [List.head?_dropLast_of_one_lt]
            · exact hhd
            · omega

        · have hsz1 : size = 1 := by omega
          have : stack.length = 1 := by omega
          refine Or.inl ⟨by omega, ?_⟩
          have : stack.dropLast.length = 0 := by rw [List.length_dropLast]; omega
          exact List.length_eq_zero.mp this
      · simp only [crystal_fGo, unmatchedOpenersGo, if_neg hai, if_neg hai1]
        exact ih (j + 1) bottom size stack h

/-- The two-integer scan returns `-1` exactly when the bracket-matching
stack ends empty, and otherwise returns the bottom (head) of the final
stack. -/
theorem crystal_f_eq_head (i : Nat) (v : Vertex) :
    crystal_f i v =
      (unmatchedOpeners i v).head?.elim (-1 : Int) (fun m => (m : Int)) := by
  have h := crystal_fGo_stackRel i v 0 0 0 [] (Or.inl ⟨le_refl 0, rfl⟩)
  unfold crystal_f unmatchedOpeners
  rcases hgo : crystal_fGo i v 0 0 0 with ⟨bottom, size⟩
  rw [hgo] at h
  rcases h with ⟨hsz, hst⟩ | ⟨hpos, hlen, hhd⟩
  · rw [hst]
    simp [hsz]
  · rw [hhd]
    simp only [Option.elim_some]
    rw [if_neg (by omega)]

theorem unmatchedOpenersGo_mem (i : Nat) :
    ∀ (v : List Nat) (j : Nat) (st : List Nat) (m : Nat),
      m ∈ unmatchedOpenersGo i v j st →
      m ∈ st ∨ ∃ k, k < v.length ∧ m = j + k ∧ v.getD k 0 = i := by
  intro v
  induction v with
  | nil => intro j st m h; exact Or.inl h
  | cons a rest ih =>
    intro j st m h
    by_cases hai : a = i
    · rw [unmatchedOpenersGo, if_pos hai] at h
      rcases ih (j + 1) (st ++ [j]) m h with hm | ⟨k, hk, hmk, hget⟩
      · rcases List.mem_append.mp hm with hm | hm
        · exact Or.inl hm
        · refine Or.inr ⟨0, by simp, ?_, by simpa using hai⟩
          simpa using List.mem_singleton.mp hm
      · exact Or.inr ⟨k + 1, by simpa using hk, by omega, by simpa using hget⟩
    · by_cases hai1 : a = i + 1
      · rw [unmatchedOpenersGo, if_neg hai, if_pos hai1] at h
        rcases ih (j + 1) st.dropLast m h with hm | ⟨k, hk, hmk, hget⟩
        · exact Or.inl ((List.dropLast_sublist st).subset hm)
        · exact Or.inr ⟨k + 1, by simpa using hk, by omega, by simpa using hget⟩
      · rw [unmatchedOpenersGo, if_neg hai, if_neg hai1] at h
        rcases ih (j + 1) st m h with hm | ⟨k, hk, hmk, hget⟩
        · exact Or.inl hm
        · exact Or.inr ⟨k + 1, by simpa using hk, by omega, by simpa using hget⟩

/-- Every unmatched-opener position is a position of the vertex holding the
letter `i`. -/
theorem unmatchedOpeners_mem (i : Nat) (v : Vertex) (m : Nat)
    (h : m ∈ unmatchedOpeners i v) : m < v.length ∧ v.getD m 0 = i := by
  rcases unmatchedOpenersGo_mem i v 0 [] m h with hm | ⟨k, hk, hmk, hget⟩
  · simp at hm
  · subst hmk
    rw [Nat.zero_add]
    exact ⟨hk, hget⟩

theorem unmatchedOpenersGo_pairwise (i : Nat) :
    ∀ (v : List Nat) (j : Nat) (st : List Nat),
      st.Pairwise (· < ·) → (∀ m ∈ st, m < j) →
      (unmatchedOpenersGo i v j st).Pairwise (· < ·) := by
  intro v
  induction v with
  | nil => intro j st hpw _; exact hpw
  | cons a rest ih =>
    intro j st hpw hlt
    by_cases hai : a = i
    · rw [unmatchedOpenersGo, if_pos hai]
      refine ih (j + 1) (st ++ [j]) ?_ ?_
      · refine List.pairwise_append.mpr ⟨hpw, List.pairwise_singleton _ _, ?_⟩
        intro x hx y hy
        rw [List.mem_singleton.mp hy]
        exact hlt x hx
      · intro m hm
        rcases List.mem_append.mp hm with hm | hm
        · exact Nat.lt_succ_of_lt (hlt m hm)
        · rw [List.mem_singleton.mp hm]; omega
    · by_cases hai1 : a = i + 1
      · rw [unmatchedOpenersGo, if_neg hai, if_pos hai1]
        exact ih (j + 1) st.dropLast (List.Pairwise.sublist (List.dropLast_sublist st) hpw)
          (fun m hm => Nat.lt_succ_of_lt (hlt m ((List.dropLast_sublist st).subset hm)))
      · rw [unmatchedOpenersGo, if_neg hai, if_neg hai1]
        exact ih (j + 1) st hpw (fun m hm => Nat.lt_succ_of_lt (hlt m hm))

/-- The unmatched-opener positions are listed in strictly increasing order,
so the head of the list is the left-most one. -/
theorem unmatchedOpeners_pairwise (i : Nat) (v : Vertex) :
    (unmatchedOpeners i v).Pairwise (· < ·) :=
  unmatchedOpenersGo_pairwise i v 0 [] (List.Pairwise.nil) (by simp)

/-- If the two-integer `crystal_f` reports an index, that index is in range
and holds the letter `i`. -/
theorem crystal_f_pos_spec (i : Nat) (v : Vertex) (j : Nat)
    (h : crystal_f i v = (j : Int)) : j < v.length ∧ v.getD j 0 = i := by
  have hspec := crystal_f_eq_head i v
  rw [h] at hspec
  rcases hhd : (unmatchedOpeners i v).head? with _ | m
  · rw [hhd] at hspec
    simp only [Option.elim_none] at hspec
    exact absurd hspec (by omega)
  · rw [hhd] at hspec
    simp only [Option.elim_some] at hspec
    have hj : j = m := by exact_mod_cast hspec
    subst hj
    exact unmatchedOpeners_mem i v j (List.mem_of_mem_head? hhd)

/-- C2: for every index `i` and vertex `v`, the two-integer `crystal_f`
returns `-1` exactly when the explicit-stack bracket matching leaves no
opener unmatched, and otherwise returns the position of the left-most
never-closed opener (`unmatchedOpeners` is the final stack: it lists, in
strictly increasing position order, in-range positions holding the letter
`i`, so its head is the left-most never-closed opener); and the stack-based
version `crystal_fStack` agrees with the two-integer version on every
input: it returns `null` exactly when `crystal_f` returns `-1`, and
otherwise the vertex modified at exactly the position `crystal_f`
reports. -/
theorem crystal_f_two_integer_eq_stack_reference (i : Nat) (v : Vertex) :
    crystal_fStack i v =
      (if crystal_f i v < 0 then none
       else some (v.set (crystal_f i v).toNat (i + 1))) ∧
    crystal_f i v = (unmatchedOpeners i v).head?.elim (-1 : Int) (fun m => (m : Int)) ∧
    (unmatchedOpeners i v).Pairwise (· < ·) ∧
    (∀ m ∈ unmatchedOpeners i v, m < v.length ∧ v.getD m 0 = i) := by
  refine ⟨?_, crystal_f_eq_head i v, unmatchedOpeners_pairwise i v,
    fun m hm => unmatchedOpeners_mem i v m hm⟩
  have hspec := crystal_f_eq_head i v
  unfold crystal_fStack
  rcases hst : unmatchedOpeners i v with _ | ⟨m, rest⟩
  · rw [hst] at hspec
    simp only [List.head?_nil, Option.elim_none] at hspec
    rw [hspec]
    simp
  · rw [hst] at hspec
    simp only [List.head?_cons, Option.elim_some] at hspec
    rw [hspec]
    rw [if_neg (by omega)]
    simp

/-! ## The lattice-word recogniser (claims C3 and C7) -/

/-- A successful recogniser step needs a positive letter. -/
theorem lwStep_letter_pos (q : List Nat) (num : Nat) (p : List Nat)
    (h : lwStep q num = some p) : 1 ≤ num := by
  by_contra hnum
  have hnum0 : num = 0 := by omega
  subst hnum0
  unfold lwStep at h
  rw [if_neg (by omega), if_neg (by omega), if_neg (by omega),
    if_neg (by rintro ⟨h2, _⟩; omega)] at h
  exact absurd h (by simp)

/-- Every letter of a word accepted by the recogniser is positive. -/
theorem latticeWord_letters_pos :
    ∀ (w q p : List Nat), latticeWordToMaybePartition q w = some p →
      ∀ a ∈ w, 1 ≤ a := by
  intro w
  induction w with
  | nil => intro q p _ a ha; simp at ha
  | cons num rest ih =>
    intro q p h a ha
    rw [latticeWordToMaybePartition] at h
    rcases hstep : lwStep q num with _ | q2
    · rw [hstep] at h; exact absurd h (by simp)
    · rw [hstep] at h
      rcases List.mem_cons.mp ha with rfl | ha
      · exact lwStep_letter_pos q a q2 hstep
      · exact ih q2 p h a ha

/-- The recogniser splits over concatenation of words. -/
theorem latticeWord_append :
    ∀ (w1 w2 q : List Nat),
      latticeWordToMaybePartition q (w1 ++ w2) =
        match latticeWordToMaybePartition q w1 with
        | none => none
        | some p => latticeWordToMaybePartition p w2 := by
  intro w1
  induction w1 with
  | nil => intro w2 q; rfl
  | cons num rest ih =>
    intro w2 q
    rw [List.cons_append, latticeWordToMaybePartition, latticeWordToMaybePartition]
    rcases hstep : lwStep q num with _ | q2
    · rfl
    · exact ih w2 q2

/-! ## Round trip through `partitionToHw` (claim C3) -/



theorem hwWord_shift :
    ∀ (part : List Nat) (k : Nat),
      (List.range part.length).flatMap
          (fun i => List.replicate (part.getD i 0) (k + i + 1)) =
        hwWordFrom k part := by
  intro part
  induction part with
  | nil => intro k; rfl
  | cons r rest ih =>
    intro k
    rw [List.length_cons, List.range_succ_eq_map, List.flatMap_cons, List.flatMap_map,
      hwWordFrom, ← ih (k + 1)]
    congr 1
    refine List.flatMap_congr ?_
    intro a _
    have h1 : k + (a + 1) + 1 = k + 1 + a + 1 := by omega
    simp only [Function.comp_def, List.getD_cons_succ, h1]

theorem hwWord_eq_from (part : List Nat) : hwWord part = hwWordFrom 0 part := by
  rw [← hwWord_shift part 0]
  unfold hwWord
  apply List.flatMap_congr
  intro i _
  congr 1
  omega

/-- Processing a run of `t` further letters `k + 1` from a state whose last
(`k`-th) entry is `c` bumps that entry to `c + t`, provided the row above is
long enough. -/
theorem latticeWord_row (k : Nat) :
    ∀ (t : Nat) (q : List Nat) (c : Nat),
      q.length = k + 1 → q.getD k 0 = c → (k = 0 ∨ c + t ≤ q.getD (k - 1) 0) →
      latticeWordToMaybePartition q (List.replicate t (k + 1)) = some (q.set k (c + t)) := by
  intro t
  induction t with
  | zero =>
    intro q c hlen hc _
    rw [List.replicate_zero, latticeWordToMaybePartition, Nat.add_zero, ← hc,
      List.set_getD_self]
  | succ t ih =>
    intro q c hlen hc hfit
    rw [List.replicate_succ, latticeWordToMaybePartition]
    have hstep : lwStep q (k + 1) = some (q.set k (c + 1)) := by
      have hne1 : ¬(k + 1 = q.length + 1) := by omega
      rcases Nat.eq_zero_or_pos k with rfl | hk
      · rcases q with _ | ⟨p0, rest⟩
        · simp at hlen
        · have hrest : rest = [] := by
            rw [List.length_cons] at hlen
            exact List.length_eq_zero.mp (by omega)
          subst hrest
          simp only [List.getD_cons_zero] at hc
          subst hc
          unfold lwStep
          rw [if_neg hne1, if_pos rfl]
          rfl
      · have h2 : k + 1 - 1 = k := by omega
        have h3 : k + 1 - 2 = k - 1 := by omega
        have hcond : 2 ≤ k + 1 ∧ q.getD (k + 1 - 1) 0 < q.getD (k + 1 - 2) 0 := by
          refine ⟨by omega, ?_⟩
          rw [h2, h3, hc]
          rcases hfit with hfit | hfit
          · exact absurd hfit (by omega)
          · omega
        unfold lwStep
        rw [if_neg hne1, if_neg (by omega), if_neg (by omega), if_pos hcond, h2, hc]
    rw [hstep]
    have hres := ih (q.set k (c + 1)) (c + 1)
      (by rw [List.length_set]; exact hlen)
      (List.getD_set_self q k (c + 1) (by omega))
      (by
        rcases Nat.eq_zero_or_pos k with rfl | hk
        · exact Or.inl rfl
        · rcases hfit with hfit | hfit
          · exact absurd hfit (by omega)
          · refine Or.inr ?_
            rw [List.getD_set_ne q k (k - 1) (c + 1) (by omega)]
            omega)
    have harith : c + 1 + t = c + (t + 1) := by omega
    show latticeWordToMaybePartition (q.set k (c + 1)) (List.replicate t (k + 1)) =
      some (q.set k (c + (t + 1)))
    rw [hres, List.set_set, harith]

theorem weaklyDecr_cons (a : Nat) (l : List Nat) (h : weaklyDecr (a :: l) = true) :
    weaklyDecr l = true ∧ ∀ h2, l.head? = some h2 → h2 ≤ a := by
  rcases l with _ | ⟨b, rest⟩
  · exact ⟨rfl, by simp⟩
  · rw [weaklyDecr, Bool.and_eq_true, decide_eq_true_eq] at h
    refine ⟨h.2, ?_⟩
    intro h2 hh2
    rw [List.head?_cons, Option.some_inj] at hh2
    omega

theorem isPartition_spec (p : List Nat) (hp : isPartition p = true) :
    weaklyDecr p = true ∧ ∀ a ∈ p, 1 ≤ a := by
  rw [isPartition, Bool.and_eq_true, decide_eq_true_eq] at hp
  refine ⟨hp.1, ?_⟩
  rcases hp with ⟨hdec, hlast⟩
  induction p with
  | nil => intro a ha; simp at ha
  | cons a rest ih =>
    intro x hx
    rcases weaklyDecr_cons a rest hdec with ⟨hdec2, hhead⟩
    rcases rest with _ | ⟨b, rest2⟩
    · rcases List.mem_singleton.mp hx with rfl
      simpa using hlast
    · have hlast2 : 1 ≤ (b :: rest2).getLastD 1 := by
        simpa using hlast
      rcases List.mem_cons.mp hx with rfl | hx
      · have hb := ih hdec2 hlast2 b (List.mem_cons_self b rest2)
        have hba := hhead b rfl
        omega
      · exact ih hdec2 hlast2 x hx

/-- Processing the rows `k, k+1, ...` of a partition from a matching state
appends exactly those rows to the state. -/
theorem latticeWord_rows :
    ∀ (rows : List Nat) (k : Nat) (q : List Nat),
      q.length = k →
      weaklyDecr rows = true →
      (∀ a ∈ rows, 1 ≤ a) →
      (∀ h, rows.head? = some h → k = 0 ∨ h ≤ q.getD (k - 1) 0) →
      latticeWordToMaybePartition q (hwWordFrom k rows) = some (q ++ rows) := by
  intro rows
  induction rows with
  | nil =>
    intro k q _ _ _ _
    rw [hwWordFrom, latticeWordToMaybePartition, List.append_nil]
  | cons r rest ih =>
    intro k q hlen hdec hpos hfit
    have hr1 : 1 ≤ r := hpos r (List.mem_cons_self r rest)
    rw [hwWordFrom, latticeWord_append]
    have hrow : latticeWordToMaybePartition q (List.replicate r (k + 1)) =
        some (q ++ [r]) := by
      have hsplit : List.replicate r (k + 1) = (k + 1) :: List.replicate (r - 1) (k + 1) := by
        rcases r with _ | r2
        · omega
        · rw [List.replicate_succ, Nat.add_sub_cancel]
      rw [hsplit, latticeWordToMaybePartition]
      have hstep : lwStep q (k + 1) = some (q ++ [1]) := by
        unfold lwStep
        rw [if_pos (by omega)]
      rw [hstep]
      show latticeWordToMaybePartition (q ++ [1]) (List.replicate (r - 1) (k + 1)) =
        some (q ++ [r])
      have hres := latticeWord_row k (r - 1) (q ++ [1]) 1
        (by simp [hlen])
        (by rw [List.getD_append_right q [1] 0 k (by omega)]; simp [hlen])
        (by
          rcases Nat.eq_zero_or_pos k with rfl | hk
          · exact Or.inl rfl
          · refine Or.inr ?_
            rw [List.getD_append q [1] 0 (k - 1) (by omega)]
            have := hfit r rfl
            omega)
      rw [hres]
      have hset : (q ++ [1]).set k (1 + (r - 1)) = q ++ [r] := by
        have h1r : 1 + (r - 1) = r := by omega
        rw [h1r, ← hlen, List.set_append_length]
      rw [hset]
    rw [hrow]
    show latticeWordToMaybePartition (q ++ [r]) (hwWordFrom (k + 1) rest) =
      some (q ++ (r :: rest))
    rcases weaklyDecr_cons r rest hdec with ⟨hdec2, hhead⟩
    have hres2 := ih (k + 1) (q ++ [r])
      (by simp [hlen])
      hdec2
      (fun a ha => hpos a (List.mem_cons_of_mem r ha))
      (by
        intro h2 hh2
        refine Or.inr ?_
        rw [Nat.add_sub_cancel, List.getD_append_right q [r] 0 k (by omega)]
        have := hhead h2 hh2
        simp [hlen]
        omega)
    rw [hres2]
    simp

/-- C3: for every valid partition `p`, the lattice-word recogniser run from
the empty partition over `partitionToHw(p)` succeeds and returns `p`. -/
theorem partitionToHw_roundTrip (p : List Nat) (hp : isPartition p = true) :
    partitionToHw p = some (hwWord p) ∧
    latticeWordToMaybePartition [] (hwWord p) = some p := by
  rcases isPartition_spec p hp with ⟨hdec, hpos⟩
  constructor
  · rw [partitionToHw, if_pos hp]
  · rw [hwWord_eq_from]
    have h := latticeWord_rows p 0 [] rfl hdec hpos (fun _ _ => Or.inl rfl)
    simpa using h

/-- Witness for C3 at the concrete partition `[2, 1]`. -/
theorem partitionToHw_roundTrip_witness :
    isPartition [2, 1] = true ∧
      (partitionToHw [2, 1] = some (hwWord [2, 1]) ∧
        latticeWordToMaybePartition [] (hwWord [2, 1]) = some [2, 1]) :=
  ⟨by decide, partitionToHw_roundTrip [2, 1] (by decide)⟩

/-! ## Reachability in the crystal graph -/



theorem reach_of_zero (start v : List Nat) (h : ReachGL 0 start v) : v = start := by
  induction h with
  | refl => rfl
  | step v i j _ hi1 hin _ _ => omega

/-- Reachable vertices keep the length of `start`, and their letters stay
in `[1, n]` when those of `start` are. -/
theorem reach_bounds (n : Nat) (start : List Nat)
    (hpos : ∀ a ∈ start, 1 ≤ a) (hle : ∀ a ∈ start, a ≤ n) :
    ∀ v, ReachGL n start v → v.length = start.length ∧ ∀ a ∈ v, 1 ≤ a ∧ a ≤ n := by
  intro v hv
  induction hv with
  | refl => exact ⟨rfl, fun a ha => ⟨hpos a ha, hle a ha⟩⟩
  | step v i j _ hi1 hin hj ih =>
    refine ⟨by rw [List.length_set]; exact ih.1, ?_⟩
    intro a ha
    rcases List.mem_or_eq_of_mem_set ha with ha | rfl
    · exact ih.2 a ha
    · omega

theorem foldl_max_le (n : Nat) :
    ∀ (v : List Nat) (acc : Nat), v.foldl max acc ≤ n ↔ acc ≤ n ∧ ∀ a ∈ v, a ≤ n := by
  intro v
  induction v with
  | nil => intro acc; simp [List.foldl]
  | cons a rest ih =>
    intro acc
    rw [List.foldl_cons, ih (max acc a)]
    constructor
    · rintro ⟨hm, hall⟩
      exact ⟨by omega, fun x hx => by
        rcases List.mem_cons.mp hx with rfl | hx
        · omega
        · exact hall x hx⟩
    · rintro ⟨hacc, hall⟩
      have ha := hall a (List.mem_cons_self a rest)
      exact ⟨by omega, fun x hx => hall x (List.mem_cons_of_mem a hx)⟩

theorem vertexHeight_le_iff (v : List Nat) (n : Nat) :
    vertexHeight v ≤ n ↔ ∀ a ∈ v, a ≤ n := by
  unfold vertexHeight
  rw [foldl_max_le]
  simp

theorem isLatticeWord_letters_pos (v : List Nat) (h : isLatticeWord v = true) :
    ∀ a ∈ v, 1 ≤ a := by
  rw [isLatticeWord, Option.isSome_iff_exists] at h
  rcases h with ⟨p, hp⟩
  exact latticeWord_letters_pos v [] p hp

/-! ## The DFS invariant -/



theorem ResolvedIn_mono (seen seen' : List (List Nat)) (hsub : ∀ w ∈ seen, w ∈ seen')
    (i : Nat) (v : List Nat) (h : ResolvedIn seen i v) : ResolvedIn seen' i v := by
  rcases h with h | h
  · exact Or.inl h
  · exact Or.inr (hsub _ h)

theorem PathOk_mono (n : Nat) (start : List Nat) (seen seen' : List (List Nat))
    (hsub : ∀ w ∈ seen, w ∈ seen') :
    ∀ (ms : List Nat) (v : List Nat) (es : List Nat),
      PathOk n start seen v ms es → PathOk n start seen' v ms es := by
  intro ms
  induction ms with
  | nil =>
    intro v es h
    rcases es with _ | ⟨e, es⟩
    · exact h
    · exact absurd h (by simp [PathOk])
  | cons j ms ih =>
    intro v es h
    rcases es with _ | ⟨e, es⟩
    · exact absurd h (by simp [PathOk])
    · rcases h with ⟨hseen, h2, hn, hget, hedge, hres, hrest⟩
      exact ⟨hsub _ hseen, h2, hn, hget, hedge,
        fun i hi1 hie => ResolvedIn_mono seen seen' hsub i _ (hres i hi1 hie),
        ih _ _ hrest⟩

/-- Every vertex on the DFS path is seen. -/
theorem PathOk_path_sub (n : Nat) (start : List Nat) (seen : List (List Nat))
    (hstart : start ∈ seen) :
    ∀ (ms : List Nat) (v : List Nat) (es : List Nat),
      PathOk n start seen v ms es → ∀ w ∈ pathVerts v ms, w ∈ seen := by
  intro ms
  induction ms with
  | nil =>
    intro v es h w hw
    rcases es with _ | ⟨e, es⟩
    · have hv : v = start := h
      rcases List.mem_singleton.mp hw with rfl
      rw [hv]
      exact hstart
    · exact absurd h (by simp [PathOk])
  | cons j ms ih =>
    intro v es h w hw
    rcases es with _ | ⟨e, es⟩
    · exact absurd h (by simp [PathOk])
    · rcases h with ⟨hseen, _, _, _, _, _, hrest⟩
      rcases List.mem_cons.mp hw with rfl | hw
      · exact hseen
      · exact ih _ _ hrest w hw

theorem pushVert_eq_applyEdge (s : DfsState)
    (h : ¬crystal_f s.toExpand s.mutVert < 0) :
    pushVert s = applyEdge s.toExpand s.mutVert := by
  have hj : crystal_f s.toExpand s.mutVert =
      ((crystal_f s.toExpand s.mutVert).toNat : Int) :=
    (Int.toNat_of_nonneg (by omega)).symm
  have hspec := crystal_f_pos_spec s.toExpand s.mutVert _ hj
  unfold pushVert applyEdge
  rw [hspec.2]

/-- The loop invariant is preserved by every iteration. -/
theorem dfsStep_inv (n : Nat) (start : List Nat) (s s' : DfsState)
    (hinv : DfsInv n start s) (hstep : dfsStep n s = some s') :
    DfsInv n start s' := by
  by_cases hte : s.toExpand = n
  · rcases hms : s.mutStack with _ | ⟨j, ms⟩
    · rw [dfsStep, if_pos hte, hms] at hstep
      exact absurd hstep (by simp)
    · rcases hes : s.expStack with _ | ⟨e, es⟩
      · rw [dfsStep, if_pos hte, hms, hes] at hstep
        exact absurd hstep (by simp)
      · rw [dfsStep, if_pos hte, hms, hes, Option.some_inj] at hstep
        have hpo := hinv.path_ok
        rw [hms, hes] at hpo
        rcases hpo with ⟨hseen, h2e, hen, hget, hedge, hres, hrest⟩
        subst hstep
        have h1e : 1 ≤ e := by omega
        refine ⟨?_, h1e, hen, hinv.seen_nodup, hinv.acc_rev, hinv.start_seen,
          hinv.seen_reach, hrest, hres, ?_⟩
        · have hl := hinv.stacksLen
          rw [hms, hes] at hl
          simpa using hl
        · intro w hw
          rcases hinv.closed_off w hw with hpath | hclosed
          · rw [hms] at hpath
            rw [pathVerts] at hpath
            rcases List.mem_cons.mp hpath with rfl | hpath
            · refine Or.inr ?_
              intro i hi1 hin
              exact hinv.resolved_cur i hi1 (by omega)
            · exact Or.inl hpath
          · exact Or.inr hclosed
  · by_cases hneg : crystal_f s.toExpand s.mutVert < 0
    · rw [dfsStep, if_neg hte, if_pos hneg, Option.some_inj] at hstep
      subst hstep
      have h1 : 1 ≤ s.toExpand + 1 := by omega
      have h2 : s.toExpand + 1 ≤ n := by have := hinv.texp_le; omega
      refine ⟨hinv.stacksLen, h1, h2, hinv.seen_nodup, hinv.acc_rev, hinv.start_seen,
        hinv.seen_reach, hinv.path_ok, ?_, hinv.closed_off⟩
      intro i hi1 hilt
      have hilt2 : i < s.toExpand + 1 := hilt
      rcases Nat.lt_or_ge i s.toExpand with hlt | hge
      · exact hinv.resolved_cur i hi1 hlt
      · have hieq : i = s.toExpand := by omega
        subst hieq
        exact Or.inl hneg
    · have hpush := pushVert_eq_applyEdge s hneg
      have hj : crystal_f s.toExpand s.mutVert =
          ((crystal_f s.toExpand s.mutVert).toNat : Int) :=
        (Int.toNat_of_nonneg (by omega)).symm
      have hspec := crystal_f_pos_spec s.toExpand s.mutVert _ hj
      by_cases hmem : pushVert s ∈ s.seen
      · rw [dfsStep, if_neg hte, if_neg hneg, if_pos hmem, Option.some_inj] at hstep
        subst hstep
        have h1 : 1 ≤ s.toExpand + 1 := by omega
        have h2 : s.toExpand + 1 ≤ n := by have := hinv.texp_le; omega
        refine ⟨hinv.stacksLen, h1, h2, hinv.seen_nodup, hinv.acc_rev, hinv.start_seen,
          hinv.seen_reach, hinv.path_ok, ?_, hinv.closed_off⟩
        intro i hi1 hilt
        have hilt2 : i < s.toExpand + 1 := hilt
        rcases Nat.lt_or_ge i s.toExpand with hlt | hge
        · exact hinv.resolved_cur i hi1 hlt
        · have hieq : i = s.toExpand := by omega
          subst hieq
          refine Or.inr ?_
          rw [← hpush]
          exact hmem
      · rw [dfsStep, if_neg hte, if_neg hneg, if_neg hmem, Option.some_inj] at hstep
        subst hstep
        have htexp1 := hinv.texp_pos
        have htexp2 := hinv.texp_le
        have hsub : ∀ w ∈ s.seen, w ∈ pushVert s :: s.seen :=
          fun w hw => List.mem_cons_of_mem _ hw
        have hcur : s.mutVert ∈ s.seen :=
          PathOk_path_sub n start s.seen hinv.start_seen s.mutStack s.mutVert s.expStack
            hinv.path_ok s.mutVert (by
              cases hms : s.mutStack <;> rw [pathVerts] <;> exact List.mem_cons_self _ _)
        have hreachNew : ReachGL n start (pushVert s) := by
          rw [hpush]
          unfold applyEdge
          exact ReachGL.step s.mutVert s.toExpand _
            (hinv.seen_reach s.mutVert hcur) htexp1 (by omega) hj
        have h1n : (1 : Nat) ≤ n := by omega
        refine ⟨?_, le_refl 1, h1n, ?_, ?_, ?_, ?_, ?_, ?_, ?_⟩
        · have := hinv.stacksLen
          simpa using this
        · exact List.nodup_cons.mpr ⟨hmem, hinv.seen_nodup⟩
        · simpa using congrArg (pushVert s :: ·) hinv.acc_rev
        · exact List.mem_cons_of_mem _ hinv.start_seen
        · intro w hw
          rcases List.mem_cons.mp hw with rfl | hw
          · exact hreachNew
          · exact hinv.seen_reach w hw
        · show PathOk n start (pushVert s :: s.seen) (pushVert s)
            ((crystal_f s.toExpand s.mutVert).toNat :: s.mutStack)
            ((s.toExpand + 1) :: s.expStack)
          have hparent : (pushVert s).set (crystal_f s.toExpand s.mutVert).toNat
              ((pushVert s).getD (crystal_f s.toExpand s.mutVert).toNat 0 - 1) = s.mutVert := by
            unfold pushVert
            rw [List.getD_set_self _ _ _ hspec.1, List.set_set, Nat.add_sub_cancel,
              List.set_getD_self]
          refine ⟨List.mem_cons_self _ _, by omega, by omega, ?_, ?_, ?_, ?_⟩
          · unfold pushVert
            rw [List.getD_set_self _ _ _ hspec.1, hspec.2]
          · rw [hparent, Nat.add_sub_cancel]
            exact hj
          · intro i hi1 hilt
            rw [hparent]
            rcases Nat.lt_or_ge i s.toExpand with hlt | hge
            · exact ResolvedIn_mono s.seen _ hsub i _ (hinv.resolved_cur i hi1 hlt)
            · have hieq : i = s.toExpand := by omega
              subst hieq
              refine Or.inr ?_
              rw [← hpush]
              exact List.mem_cons_self _ _
          · rw [hparent]
            exact PathOk_mono n start s.seen _ hsub s.mutStack s.mutVert s.expStack
              hinv.path_ok
        · intro i hi1 hilt
          have hilt2 : i < 1 := hilt
          omega
        · intro w hw
          rcases List.mem_cons.mp hw with rfl | hw
          · refine Or.inl ?_
            rw [pathVerts]
            exact List.mem_cons_self _ _
          · rcases hinv.closed_off w hw with hpath | hclosed
            · refine Or.inl ?_
              rw [pathVerts]
              refine List.mem_cons_of_mem _ ?_
              have hparent : (pushVert s).set (crystal_f s.toExpand s.mutVert).toNat
                  ((pushVert s).getD (crystal_f s.toExpand s.mutVert).toNat 0 - 1) =
                    s.mutVert := by
                unfold pushVert
                rw [List.getD_set_self _ _ _ hspec.1, List.set_set, Nat.add_sub_cancel,
                  List.set_getD_self]
              rw [hparent]
              exact hpath
            · exact Or.inr fun i hi1 hin =>
                ResolvedIn_mono s.seen _ hsub i w (hclosed i hi1 hin)

/-- The loop breaks only at the root with all operators exhausted. -/
theorem dfsStep_none (n : Nat) (start : List Nat) (s : DfsState)
    (hinv : DfsInv n start s) (h : dfsStep n s = none) :
    s.toExpand = n ∧ s.mutStack = [] ∧ s.expStack = [] := by
  by_cases hte : s.toExpand = n
  · rcases hms : s.mutStack with _ | ⟨j, ms⟩
    · rcases hes : s.expStack with _ | ⟨e, es⟩
      · exact ⟨hte, rfl, rfl⟩
      · have hl := hinv.stacksLen
        rw [hms, hes] at hl
        simp at hl
    · rcases hes : s.expStack with _ | ⟨e, es⟩
      · have hl := hinv.stacksLen
        rw [hms, hes] at hl
        simp at hl
      · rw [dfsStep, if_pos hte, hms, hes] at h
        exact absurd h (by simp)
  · rw [dfsStep, if_neg hte] at h
    by_cases hneg : crystal_f s.toExpand s.mutVert < 0
    · rw [if_pos hneg] at h
      exact absurd h (by simp)
    · rw [if_neg hneg] at h
      by_cases hmem : pushVert s ∈ s.seen
      · rw [if_pos hmem] at h
        exact absurd h (by simp)
      · rw [if_neg hmem] at h
        exact absurd h (by simp)

/-- The invariant holds at the start of the loop. -/
theorem initState_inv (n : Nat) (start : List Nat) (hn : 1 ≤ n) :
    DfsInv n start (initState start) := by
  refine ⟨rfl, le_refl 1, hn, ?_, rfl, ?_, ?_, ?_, ?_, ?_⟩
  · exact List.nodup_singleton start
  · exact List.mem_singleton_self start
  · intro w hw
    rcases List.mem_singleton.mp hw with rfl
    exact ReachGL.refl
  · show PathOk n start [start] start [] []
    rfl
  · intro i hi1 hilt
    have hilt2 : i < 1 := hilt
    omega
  · intro w hw
    rcases List.mem_singleton.mp hw with rfl
    exact Or.inl (List.mem_singleton_self _)

/-! ## Termination of the loop -/



theorem encodeWord_lt (B : Nat) :
    ∀ (w : List Nat), (∀ a ∈ w, a < B) → encodeWord B w < B ^ w.length := by
  intro w
  induction w with
  | nil => intro _; simp [encodeWord]
  | cons a rest ih =>
    intro hb
    have ha : a < B := hb a (List.mem_cons_self a rest)
    have hr : encodeWord B rest < B ^ rest.length :=
      ih (fun x hx => hb x (List.mem_cons_of_mem a hx))
    rw [encodeWord, List.length_cons, pow_succ]
    calc a + B * encodeWord B rest + 1
        ≤ B + B * encodeWord B rest := by omega
      _ = B * (encodeWord B rest + 1) := by ring
      _ ≤ B * B ^ rest.length := Nat.mul_le_mul_left B (by omega)
      _ = B ^ rest.length * B := Nat.mul_comm _ _

theorem encodeWord_inj (B : Nat) :
    ∀ (w1 w2 : List Nat), w1.length = w2.length →
      (∀ a ∈ w1, a < B) → (∀ a ∈ w2, a < B) →
      encodeWord B w1 = encodeWord B w2 → w1 = w2 := by
  intro w1
  induction w1 with
  | nil =>
    intro w2 hlen _ _ _
    exact (List.length_eq_zero.mp hlen.symm).symm
  | cons a rest ih =>
    intro w2 hlen hb1 hb2 henc
    rcases w2 with _ | ⟨c, rest2⟩
    · simp at hlen
    · have ha : a < B := hb1 a (List.mem_cons_self a rest)
      have hc : c < B := hb2 c (List.mem_cons_self c rest2)
      rw [encodeWord, encodeWord] at henc
      have hmod : (a + B * encodeWord B rest) % B = (c + B * encodeWord B rest2) % B := by
        rw [henc]
      rw [Nat.add_mul_mod_self_left, Nat.add_mul_mod_self_left,
        Nat.mod_eq_of_lt ha, Nat.mod_eq_of_lt hc] at hmod
      subst hmod
      have hBe : B * encodeWord B rest = B * encodeWord B rest2 :=
        Nat.add_left_cancel henc
      have htail : encodeWord B rest = encodeWord B rest2 :=
        Nat.eq_of_mul_eq_mul_left (by omega) hBe
      have := ih rest2 (by simpa using hlen)
        (fun x hx => hb1 x (List.mem_cons_of_mem a hx))
        (fun x hx => hb2 x (List.mem_cons_of_mem a hx)) htail
      rw [this]

/-- A duplicate-free list of words of a fixed length over letters `≤ n` has
at most `(n + 1) ^ L` entries. -/
theorem nodup_bounded_length_le (n L : Nat) (l : List (List Nat))
    (hnd : l.Nodup) (hb : ∀ w ∈ l, w.length = L ∧ ∀ a ∈ w, a ≤ n) :
    l.length ≤ (n + 1) ^ L := by
  have hmapnd : (l.map (encodeWord (n + 1))).Nodup := by
    refine List.Nodup.map_on ?_ hnd
    intro x hx y hy hxy
    exact encodeWord_inj (n + 1) x y ((hb x hx).1.trans (hb y hy).1.symm)
      (fun a ha => by have := (hb x hx).2 a ha; omega)
      (fun a ha => by have := (hb y hy).2 a ha; omega) hxy
  have hsub : (l.map (encodeWord (n + 1))).toFinset ⊆ Finset.range ((n + 1) ^ L) := by
    intro x hx
    rw [List.mem_toFinset] at hx
    rcases List.mem_map.mp hx with ⟨w, hw, rfl⟩
    rw [Finset.mem_range]
    have := encodeWord_lt (n + 1) w (fun a ha => by have := (hb w hw).2 a ha; omega)
    rw [(hb w hw).1] at this
    exact this
  have hcard := Finset.card_le_card hsub
  rw [Finset.card_range, List.toFinset_card_of_nodup hmapnd, List.length_map] at hcard
  exact hcard



/-- Every loop iteration strictly decreases the potential. -/
theorem dfsStep_decrease (n : Nat) (start : List Nat)
    (hpos : ∀ a ∈ start, 1 ≤ a) (hle : ∀ a ∈ start, a ≤ n)
    (s s' : DfsState) (hinv : DfsInv n start s) (hstep : dfsStep n s = some s') :
    dfsPot n start.length s' < dfsPot n start.length s := by
  have htp := hinv.texp_pos
  have htl := hinv.texp_le
  by_cases hte : s.toExpand = n
  · rcases hms : s.mutStack with _ | ⟨j, ms⟩
    · rw [dfsStep, if_pos hte, hms] at hstep
      exact absurd hstep (by simp)
    · rcases hes : s.expStack with _ | ⟨e, es⟩
      · rw [dfsStep, if_pos hte, hms, hes] at hstep
        exact absurd hstep (by simp)
      · rw [dfsStep, if_pos hte, hms, hes, Option.some_inj] at hstep
        have hpo := hinv.path_ok
        rw [hms, hes] at hpo
        rcases hpo with ⟨_, h2e, hen, _⟩
        subst hstep
        simp only [dfsPot, expSum, hes, List.foldr_cons, hte]
        omega
  · by_cases hneg : crystal_f s.toExpand s.mutVert < 0
    · rw [dfsStep, if_neg hte, if_pos hneg, Option.some_inj] at hstep
      subst hstep
      simp only [dfsPot, expSum]
      omega
    · by_cases hmem : pushVert s ∈ s.seen
      · rw [dfsStep, if_neg hte, if_neg hneg, if_pos hmem, Option.some_inj] at hstep
        subst hstep
        simp only [dfsPot, expSum]
        omega
      · rw [dfsStep, if_neg hte, if_neg hneg, if_neg hmem, Option.some_inj] at hstep
        subst hstep
        have hboundNew : (pushVert s :: s.seen).length ≤ (n + 1) ^ start.length := by
          refine nodup_bounded_length_le n start.length _ ?_ ?_
          · exact List.nodup_cons.mpr ⟨hmem, hinv.seen_nodup⟩
          · intro w hw
            have hreach : ReachGL n start w := by
              rcases List.mem_cons.mp hw with rfl | hw
              · have hpush := pushVert_eq_applyEdge s hneg
                have hj : crystal_f s.toExpand s.mutVert =
                    ((crystal_f s.toExpand s.mutVert).toNat : Int) :=
                  (Int.toNat_of_nonneg (by omega)).symm
                have hcur : s.mutVert ∈ s.seen :=
                  PathOk_path_sub n start s.seen hinv.start_seen s.mutStack s.mutVert
                    s.expStack hinv.path_ok s.mutVert (by
                      cases hms : s.mutStack <;> rw [pathVerts] <;>
                        exact List.mem_cons_self _ _)
                rw [hpush]
                unfold applyEdge
                exact ReachGL.step s.mutVert s.toExpand _
                  (hinv.seen_reach s.mutVert hcur) htp (by omega) hj
              · exact hinv.seen_reach w hw
            exact ⟨(reach_bounds n start hpos hle w hreach).1,
              fun a ha => ((reach_bounds n start hpos hle w hreach).2 a ha).2⟩
        have hlen : s.seen.length + 1 ≤ (n + 1) ^ start.length := by
          simpa using hboundNew
        simp only [dfsPot, expSum, List.foldr_cons, List.length_cons]
        have hmul : (n + 2) * ((n + 1) ^ start.length - s.seen.length) =
            (n + 2) * ((n + 1) ^ start.length - (s.seen.length + 1)) + (n + 2) := by
          have h1 : (n + 1) ^ start.length - s.seen.length =
              ((n + 1) ^ start.length - (s.seen.length + 1)) + 1 := by omega
          rw [h1, Nat.mul_add, Nat.mul_one]
        omega

/-- With enough fuel the loop reaches its `break`, in a state satisfying
the invariant. -/
theorem dfsRun_completes (n : Nat) (start : List Nat)
    (hpos : ∀ a ∈ start, 1 ≤ a) (hle : ∀ a ∈ start, a ≤ n) :
    ∀ (fuel : Nat) (s : DfsState), DfsInv n start s → dfsPot n start.length s < fuel →
      ∃ s', dfsRun n fuel s = (s', true) ∧ DfsInv n start s' ∧ dfsStep n s' = none := by
  intro fuel
  induction fuel with
  | zero => intro s _ hpot; omega
  | succ fuel ih =>
    intro s hinv hpot
    rcases hstep : dfsStep n s with _ | s2
    · refine ⟨s, ?_, hinv, hstep⟩
      rw [dfsRun, hstep]
    · have hinv2 := dfsStep_inv n start s s2 hinv hstep
      have hdec := dfsStep_decrease n start hpos hle s s2 hinv hstep
      rcases ih s2 hinv2 (by omega) with ⟨s', hrun, hinv', hnone⟩
      refine ⟨s', ?_, hinv', hnone⟩
      rw [dfsRun, hstep]
      exact hrun

/-- A membership set that contains `start` and is closed under existing
edges contains every reachable vertex. -/
theorem reach_sub_seen (n : Nat) (start : List Nat) (seen : List (List Nat))
    (hstart : start ∈ seen)
    (hclosed : ∀ w ∈ seen, ∀ i, 1 ≤ i → i < n → ResolvedIn seen i w) :
    ∀ v, ReachGL n start v → v ∈ seen := by
  intro v hv
  induction hv with
  | refl => exact hstart
  | step v i j hv hi1 hin hj ih =>
    rcases hclosed v ih i hi1 hin with hneg | hmem
    · rw [hj] at hneg
      exact absurd hneg (by omega)
    · unfold applyEdge at hmem
      rw [hj] at hmem
      simpa using hmem

/-- At the `break`, the visit list is duplicate-free and holds exactly the
reachable vertices. -/
theorem final_acc_spec (n : Nat) (start : List Nat) (s : DfsState)
    (hinv : DfsInv n start s) (hnone : dfsStep n s = none) :
    s.acc.Nodup ∧ ∀ v, v ∈ s.acc ↔ ReachGL n start v := by
  rcases dfsStep_none n start s hinv hnone with ⟨hte, hms, hes⟩
  have hclosed : ∀ w ∈ s.seen, ∀ i, 1 ≤ i → i < n → ResolvedIn s.seen i w := by
    intro w hw i hi1 hin
    rcases hinv.closed_off w hw with hpath | hcl
    · rw [hms] at hpath
      have hwv : w = s.mutVert := List.mem_singleton.mp hpath
      subst hwv
      exact hinv.resolved_cur i hi1 (by omega)
    · exact hcl i hi1 hin
  constructor
  · have h := hinv.seen_nodup
    rw [← hinv.acc_rev] at h
    exact List.nodup_reverse.mp h
  · intro v
    constructor
    · intro hv
      have hv2 : v ∈ s.seen := by
        rw [← hinv.acc_rev]
        exact List.mem_reverse.mpr hv
      exact hinv.seen_reach v hv2
    · intro hv
      have hv2 := reach_sub_seen n start s.seen hinv.start_seen hclosed v hv
      rw [← hinv.acc_rev] at hv2
      exact List.mem_reverse.mp hv2

/-- The canonical fuel exceeds the initial potential. -/
theorem dfsPot_init_lt (n : Nat) (start : List Nat) :
    dfsPot n start.length (initState start) < fuelBound n start := by
  have hK : 1 ≤ (n + 1) ^ start.length := Nat.one_le_pow _ _ (by omega)
  simp only [dfsPot, fuelBound, initState, expSum, List.foldr_nil, List.length_singleton]
  have hmul : (n + 2) * (n + 1) ^ start.length =
      (n + 2) * ((n + 1) ^ start.length - 1) + (n + 2) := by
    have h1 : (n + 1) ^ start.length = ((n + 1) ^ start.length - 1) + 1 := by omega
    calc (n + 2) * (n + 1) ^ start.length
        = (n + 2) * (((n + 1) ^ start.length - 1) + 1) := by rw [← h1]
      _ = (n + 2) * ((n + 1) ^ start.length - 1) + (n + 2) := by
          rw [Nat.mul_add, Nat.mul_one]
  omega

/-- For `1 ≤ n`, the traversal from a valid start completes and its visit
list is exactly the reachable set, without duplicates. -/
theorem visitGLnCrystal_spec (n : Nat) (start : Vertex)
    (h1 : isLatticeWord start = true) (h2 : vertexHeight start ≤ n) (hn : 1 ≤ n) :
    ∃ acc, visitGLnCrystal n start = RunResult.ran acc true ∧ acc.Nodup ∧
      (∀ v, v ∈ acc ↔ ReachGL n start v) := by
  have hpos := isLatticeWord_letters_pos start h1
  have hle := (vertexHeight_le_iff start n).mp h2
  obtain ⟨s', hrun, hinv', hnone⟩ := dfsRun_completes n start hpos hle
    (fuelBound n start) (initState start) (initState_inv n start hn)
    (dfsPot_init_lt n start)
  obtain ⟨hnd, hiff⟩ := final_acc_spec n start s' hinv' hnone
  refine ⟨s'.acc, ?_, hnd, hiff⟩
  rw [visitGLnCrystal, if_pos ⟨h1, h2⟩, hrun]

/-- In GL(0) the loop never breaks: it only increments the cursor. -/
theorem dfsRun_zero_fuel :
    ∀ (fuel t : Nat), 1 ≤ t →
      dfsRun 0 fuel (DfsState.mk [] [] [] t [[]] [[]]) =
        (DfsState.mk [] [] [] (t + fuel) [[]] [[]], false) := by
  intro fuel
  induction fuel with
  | zero =>
    intro t _
    rw [dfsRun]
    rfl
  | succ fuel ih =>
    intro t ht
    have hstep : dfsStep 0 (DfsState.mk [] [] [] t [[]] [[]]) =
        some (DfsState.mk [] [] [] (t + 1) [[]] [[]]) := by
      rw [dfsStep, if_neg (by show ¬(t = 0); omega),
        if_pos (by show crystal_f t [] < 0; norm_num [crystal_f, crystal_fGo])]
    simp only [dfsRun, hstep]
    rw [ih (t + 1) (by omega)]
    have harith : t + 1 + fuel = t + (fuel + 1) := by omega
    rw [harith]

/-- The invariant is preserved by any number of iterations, completed or
not. -/
theorem dfsRun_inv_any (n : Nat) (start : List Nat) :
    ∀ (fuel : Nat) (s : DfsState), DfsInv n start s →
      DfsInv n start (dfsRun n fuel s).1 := by
  intro fuel
  induction fuel with
  | zero => intro s hinv; exact hinv
  | succ fuel ih =>
    intro s hinv
    rcases hstep : dfsStep n s with _ | s2
    · simpa only [dfsRun, hstep] using hinv
    · simp only [dfsRun, hstep]
      exact ih s2 (dfsStep_inv n start s s2 hinv hstep)

/-- A `ran` outcome certifies the preconditions and the reachability of
every visited vertex. -/
theorem visitGLnCrystal_ran_reach (n : Nat) (start : Vertex)
    (acc : List (List Nat)) (completed : Bool)
    (hrun : visitGLnCrystal n start = RunResult.ran acc completed) :
    isLatticeWord start = true ∧ vertexHeight start ≤ n ∧
      ∀ v ∈ acc, ReachGL n start v := by
  have hpre : isLatticeWord start = true ∧ vertexHeight start ≤ n := by
    by_contra hc
    rw [visitGLnCrystal, if_neg hc] at hrun
    exact absurd hrun (by simp)
  obtain ⟨h1, h2⟩ := hpre
  refine ⟨h1, h2, ?_⟩
  rcases Nat.eq_zero_or_pos n with rfl | hn
  · have hpos := isLatticeWord_letters_pos start h1
    have hle := (vertexHeight_le_iff start 0).mp h2
    have hstart : start = [] := by
      rcases start with _ | ⟨a, rest⟩
      · rfl
      · have h1a := hpos a (List.mem_cons_self a rest)
        have h2a := hle a (List.mem_cons_self a rest)
        omega
    subst hstart
    rw [visitGLnCrystal, if_pos ⟨h1, h2⟩] at hrun
    have hinit : initState ([] : Vertex) = DfsState.mk [] [] [] 1 [[]] [[]] := rfl
    rw [hinit, dfsRun_zero_fuel (fuelBound 0 []) 1 (le_refl 1)] at hrun
    have hacc : acc = [[]] := by
      have := (RunResult.ran.injEq _ _ _ _).mp hrun
      exact this.1.symm
    subst hacc
    intro v hv
    rcases List.mem_singleton.mp hv with rfl
    exact ReachGL.refl
  · rw [visitGLnCrystal, if_pos ⟨h1, h2⟩] at hrun
    rcases hds : dfsRun n (fuelBound n start) (initState start) with ⟨s0, c0⟩
    rw [hds] at hrun
    have hacc : acc = s0.acc := by
      have := (RunResult.ran.injEq _ _ _ _).mp hrun
      exact this.1.symm
    subst hacc
    have hinv0 : DfsInv n start s0 := by
      have h := dfsRun_inv_any n start (fuelBound n start) (initState start)
        (initState_inv n start hn)
      rw [hds] at h
      exact h
    intro v hv
    have hv2 : v ∈ s0.seen := by
      rw [← hinv0.acc_rev]
      exact List.mem_reverse.mpr hv
    exact hinv0.seen_reach v hv2

/-- C1: for every `n` and every lattice-word start of height at most `n`,
`visitGLnCrystal` invokes the visitor exactly once for each distinct vertex
reachable from `start` by finite compositions of `f_1 .. f_{n-1}`
(including `start`): the visit list has no duplicates and holds exactly the
reachable vertices.  (For `n = 0` only the empty start is valid; the loop
then never breaks, but the visit list it accumulates is already exactly
the reachable set.) -/
theorem visitGLnCrystal_visits_each_reachable_once (n : Nat) (start : Vertex)
    (h1 : isLatticeWord start = true) (h2 : vertexHeight start ≤ n) :
    ∃ acc completed, visitGLnCrystal n start = RunResult.ran acc completed ∧
      acc.Nodup ∧ (∀ v, v ∈ acc ↔ ReachGL n start v) := by
  rcases Nat.eq_zero_or_pos n with rfl | hn
  · have hpos := isLatticeWord_letters_pos start h1
    have hle := (vertexHeight_le_iff start 0).mp h2
    have hstart : start = [] := by
      rcases start with _ | ⟨a, rest⟩
      · rfl
      · have h1a := hpos a (List.mem_cons_self a rest)
        have h2a := hle a (List.mem_cons_self a rest)
        omega
    subst hstart
    refine ⟨[[]], false, ?_, List.nodup_singleton _, ?_⟩
    · rw [visitGLnCrystal, if_pos ⟨h1, h2⟩]
      have hinit : initState ([] : Vertex) = DfsState.mk [] [] [] 1 [[]] [[]] := rfl
      rw [hinit, dfsRun_zero_fuel (fuelBound 0 []) 1 (le_refl 1)]
    · intro v
      constructor
      · intro hv
        rcases List.mem_singleton.mp hv with rfl
        exact ReachGL.refl
      · intro hv
        rw [reach_of_zero [] v hv]
        exact List.mem_singleton_self _
  · obtain ⟨acc, hrun, hnd, hiff⟩ := visitGLnCrystal_spec n start h1 h2 hn
    exact ⟨acc, true, hrun, hnd, hiff⟩

/-- Witness for C1 at `n = 3`, `start = [1]`. -/
theorem visitGLnCrystal_visits_each_reachable_once_witness :
    isLatticeWord [1] = true ∧ vertexHeight [1] ≤ 3 ∧
      (∃ acc completed, visitGLnCrystal 3 [1] = RunResult.ran acc completed ∧
        acc.Nodup ∧ (∀ v, v ∈ acc ↔ ReachGL 3 [1] v)) :=
  ⟨by decide, by decide,
    visitGLnCrystal_visits_each_reachable_once 3 [1] (by decide) (by decide)⟩

/-- A duplicate-free nonempty list all of whose members are `x` is `[x]`. -/
theorem nodup_all_eq_singleton {α : Type} (x : α) :
    ∀ (l : List α), l.Nodup → (∀ v ∈ l, v = x) → x ∈ l → l = [x] := by
  intro l
  rcases l with _ | ⟨a, rest⟩
  · intro _ _ hx
    simp at hx
  · intro hnd hall _
    have ha : a = x := hall a (List.mem_cons_self a rest)
    subst ha
    rcases rest with _ | ⟨b, rest2⟩
    · rfl
    · have hb : b = a := hall b (List.mem_cons_of_mem a (List.mem_cons_self b rest2))
      subst hb
      rw [List.nodup_cons] at hnd
      exact absurd (List.mem_cons_self b rest2) hnd.1

/-- C8 (amended): for every `n ≥ 1`, the traversal started on the empty
vertex breaks out of its loop having invoked the visitor exactly once, on
the empty vertex itself.  (At `n = 0` the claim fails: the loop never
terminates; see the counterexample below.) -/
theorem visitGLnCrystal_empty_terminates (n : Nat) (hn : 1 ≤ n) :
    visitGLnCrystal n [] = RunResult.ran [[]] true := by
  obtain ⟨acc, hrun, hnd, hiff⟩ :=
    visitGLnCrystal_spec n [] (by decide) (by simp [vertexHeight]) hn
  have hmem : ([] : List Nat) ∈ acc := (hiff []).mpr ReachGL.refl
  have hall : ∀ v ∈ acc, v = ([] : List Nat) := by
    intro v hv
    have hreach := (hiff v).mp hv
    have hlen := (reach_bounds n [] (by simp) (by simp) v hreach).1
    exact List.length_eq_zero.mp (by simpa using hlen)
  rw [nodup_all_eq_singleton ([] : List Nat) acc hnd hall hmem] at hrun
  exact hrun

/-- Witness for C8 at `n = 2`. -/
theorem visitGLnCrystal_empty_terminates_witness :
    visitGLnCrystal 2 [] = RunResult.ran [[]] true :=
  visitGLnCrystal_empty_terminates 2 (by decide)

/-- Counterexample to C8 as stated, at `n = 0` (a valid input: the empty
vertex is a lattice word of height `0`): the loop of the source never takes
its `break` — `dfsRun_zero_fuel` shows it runs out of any amount of fuel —
so the traversal does not terminate, although the visitor has been invoked
exactly once. -/
theorem visitGLnCrystal_empty_zero_diverges :
    visitGLnCrystal 0 [] = RunResult.ran [[]] false := by
  rw [visitGLnCrystal, if_pos ⟨by decide, by decide⟩]
  have hinit : initState ([] : Vertex) = DfsState.mk [] [] [] 1 [[]] [[]] := rfl
  rw [hinit, dfsRun_zero_fuel (fuelBound 0 []) 1 (le_refl 1)]

/-- C10: every vertex passed to the visitor — and hence every element of
the list returned by `expandInGL` — has the same length as `start`, and all
its letters lie in `[1, n]`. -/
theorem visited_vertices_length_letters (n : Nat) (start : Vertex)
    (acc : List (List Nat)) (completed : Bool)
    (hrun : visitGLnCrystal n start = RunResult.ran acc completed) :
    (∀ v ∈ acc, v.length = start.length ∧ ∀ a ∈ v, 1 ≤ a ∧ a ≤ n) ∧
      expandInGL n start = some acc := by
  obtain ⟨h1, h2, hreach⟩ := visitGLnCrystal_ran_reach n start acc completed hrun
  have hpos := isLatticeWord_letters_pos start h1
  have hle := (vertexHeight_le_iff start n).mp h2
  constructor
  · intro v hv
    exact reach_bounds n start hpos hle v (hreach v hv)
  · rw [expandInGL, hrun]

/-! ## Order lemmas for `compareLists` (claim C9) -/

theorem compareLists_eq_zero_iff : ∀ (a b : List Nat), compareLists a b = 0 ↔ a = b := by
  intro a
  induction a with
  | nil => intro b; cases b <;> simp [compareLists]
  | cons x as ih =>
    intro b
    cases b with
    | nil => simp [compareLists]
    | cons y bs =>
      rw [compareLists]
      rcases Nat.lt_trichotomy x y with h | h | h
      · rw [if_pos h]
        constructor
        · intro hc; exact absurd hc (by omega)
        · intro hc
          injection hc with h1 _
          omega
      · subst h
        rw [if_neg (by omega), if_neg (by omega), ih bs]
        simp
      · rw [if_neg (by omega), if_pos h]
        constructor
        · intro hc; exact absurd hc (by omega)
        · intro hc
          injection hc with h1 _
          omega

theorem compareLists_swap : ∀ (a b : List Nat), compareLists a b = -compareLists b a := by
  intro a
  induction a with
  | nil => intro b; cases b <;> simp [compareLists]
  | cons x as ih =>
    intro b
    cases b with
    | nil => simp [compareLists]
    | cons y bs =>
      rw [compareLists, compareLists]
      rcases Nat.lt_trichotomy x y with h | h | h
      · rw [if_pos h, if_neg (by omega), if_pos h]
      · subst h
        rw [if_neg (by omega), if_neg (by omega), if_neg (by omega), if_neg (by omega)]
        exact ih bs
      · rw [if_neg (by omega), if_pos h, if_pos h]
        decide

theorem compareLists_trans_nonneg :
    ∀ (a b c : List Nat), 0 ≤ compareLists a b → 0 ≤ compareLists b c →
      0 ≤ compareLists a c := by
  intro a
  induction a with
  | nil =>
    intro b c hab hbc
    cases b with
    | nil =>
      cases c with
      | nil => simp [compareLists]
      | cons z cs => exact absurd hbc (by rw [compareLists]; omega)
    | cons y bs => exact absurd hab (by rw [compareLists]; omega)
  | cons x as ih =>
    intro b c hab hbc
    cases c with
    | nil => rw [compareLists]; omega
    | cons z cs =>
      cases b with
      | nil => exact absurd hbc (by rw [compareLists]; omega)
      | cons y bs =>
        rw [compareLists] at hab hbc ⊢
        rcases Nat.lt_trichotomy x y with hxy | hxy | hxy
        · rw [if_pos hxy] at hab
          omega
        · subst hxy
          rw [if_neg (by omega), if_neg (by omega)] at hab
          rcases Nat.lt_trichotomy x z with hxz | hxz | hxz
          · rw [if_pos hxz] at hbc
            omega
          · subst hxz
            rw [if_neg (by omega), if_neg (by omega)] at hbc ⊢
            exact ih bs cs hab hbc
          · rw [if_neg (by omega), if_pos hxz]
            omega
        · rcases Nat.lt_trichotomy x z with hxz | hxz | hxz
          · rcases Nat.lt_trichotomy y z with hyz | hyz | hyz
            · rw [if_pos (by omega : y < z)] at hbc
              omega
            · omega
            · omega
          · subst hxz
            rw [if_pos hxy] at hbc
            omega
          · rw [if_neg (by omega), if_pos hxz]
            omega

theorem compareLists_trichot (a b : List Nat) :
    compareLists a b = -1 ∨ compareLists a b = 0 ∨ compareLists a b = 1 := by
  induction a generalizing b with
  | nil => cases b <;> simp [compareLists]
  | cons x as ih =>
    cases b with
    | nil => simp [compareLists]
    | cons y bs =>
      rw [compareLists]
      rcases Nat.lt_trichotomy x y with h | h | h
      · rw [if_pos h]; omega
      · subst h
        rw [if_neg (by omega), if_neg (by omega)]
        exact ih bs
      · rw [if_neg (by omega), if_pos h]; omega

theorem linRel_total (a b : List Nat × Int) : linRel a b ∨ linRel b a := by
  unfold linRel
  rcases compareLists_trichot a.1 b.1 with h | h | h
  · right
    rw [compareLists_swap]
    omega
  · left; omega
  · left; omega

theorem linGt_of_gt_ge (a b c : List Nat × Int)
    (hab : linGt a b) (hbc : linRel b c) : linGt a c := by
  unfold linGt at hab ⊢
  unfold linRel at hbc
  have h := compareLists_trans_nonneg a.1 b.1 c.1 (by omega) hbc
  by_contra hc
  have hz : compareLists a.1 c.1 = 0 := by omega
  have hac : a.1 = c.1 := (compareLists_eq_zero_iff a.1 c.1).mp hz
  rw [hac] at hab
  have hswap := compareLists_swap c.1 b.1
  omega

/-- Folding a sorted list through the merge loop yields a canonical linear
combination; `acc` holds the output built so far, reversed. -/
theorem normFoldGo_canon :
    ∀ (l acc : Linear),
      List.Sorted linRel l →
      acc.reverse.Pairwise linGt →
      (∀ x ∈ acc, x.2 ≠ 0) →
      (∀ a ∈ acc, ∀ x ∈ l, linRel a x) →
      LinearCanon (normFoldGo acc l) := by
  intro l
  induction l with
  | nil =>
    intro acc _ hpw hz _
    rw [normFoldGo]
    exact ⟨hpw, fun x hx => hz x (List.mem_reverse.mp hx)⟩
  | cons hd rest ih =>
    obtain ⟨part, mult⟩ := hd
    intro acc hsort hpw hz hrel
    have hsortRest : List.Sorted linRel rest := (List.sorted_cons.mp hsort).2
    have hheadRel : ∀ x ∈ rest, linRel (part, mult) x := (List.sorted_cons.mp hsort).1
    by_cases hm : mult = 0
    · simp only [normFoldGo]
      rw [if_pos hm]
      exact ih acc hsortRest hpw hz
        (fun a ha x hx => hrel a ha x (List.mem_cons_of_mem _ hx))
    · rcases acc with _ | ⟨⟨p0, m0⟩, accRest⟩
      · simp only [normFoldGo]
        rw [if_neg hm]
        refine ih [(part, mult)] hsortRest (List.pairwise_singleton _ _) ?_ ?_
        · intro x hx
          rcases List.mem_singleton.mp hx with rfl
          exact hm
        · intro a ha x hx
          rcases List.mem_singleton.mp ha with rfl
          exact hheadRel x hx
      · have hpwRest : accRest.reverse.Pairwise linGt := by
          rw [List.reverse_cons] at hpw
          exact List.Pairwise.sublist (List.sublist_append_left _ _) hpw
        have hcross : ∀ a ∈ accRest.reverse, linGt a (p0, m0) := by
          intro a ha
          rw [List.reverse_cons] at hpw
          exact (List.pairwise_append.mp hpw).2.2 a ha (p0, m0) (List.mem_singleton_self _)
        have hp0part : linRel (p0, m0) (part, mult) :=
          hrel (p0, m0) (List.mem_cons_self _ _) (part, mult) (List.mem_cons_self _ _)
        by_cases hcz : compareLists p0 part ≠ 0
        · simp only [normFoldGo]
          rw [if_neg hm, if_pos hcz]
          have hp0gt : linGt (p0, m0) (part, mult) := by
            have h1 : 0 ≤ compareLists p0 part := hp0part
            show 0 < compareLists p0 part
            omega
          refine ih ((part, mult) :: (p0, m0) :: accRest) hsortRest ?_ ?_ ?_
          · rw [List.reverse_cons]
            refine List.pairwise_append.mpr ⟨hpw, List.pairwise_singleton _ _, ?_⟩
            intro a ha b hb
            rcases List.mem_singleton.mp hb with rfl
            rw [List.reverse_cons] at ha
            rcases List.mem_append.mp ha with ha | ha
            · exact linGt_of_gt_ge a (p0, m0) (part, mult) (hcross a ha) hp0part
            · rcases List.mem_singleton.mp ha with rfl
              exact hp0gt
          · intro x hx
            rcases List.mem_cons.mp hx with rfl | hx
            · exact hm
            · exact hz x hx
          · intro a ha x hx
            rcases List.mem_cons.mp ha with rfl | ha
            · exact hheadRel x hx
            · exact hrel a ha x (List.mem_cons_of_mem _ hx)
        · have hcz0 : compareLists p0 part = 0 := by
            by_contra hc
            exact hcz hc
          have hp0eq : p0 = part := (compareLists_eq_zero_iff p0 part).mp hcz0
          by_cases hnm : m0 + mult = 0
          · simp only [normFoldGo]
            rw [if_neg hm, if_neg hcz, if_pos hnm]
            refine ih accRest hsortRest hpwRest ?_ ?_
            · intro x hx
              exact hz x (List.mem_cons_of_mem _ hx)
            · intro a ha x hx
              exact hrel a (List.mem_cons_of_mem _ ha) x (List.mem_cons_of_mem _ hx)
          · simp only [normFoldGo]
            rw [if_neg hm, if_neg hcz, if_neg hnm]
            refine ih ((p0, m0 + mult) :: accRest) hsortRest ?_ ?_ ?_
            · rw [List.reverse_cons]
              refine List.pairwise_append.mpr ⟨hpwRest, List.pairwise_singleton _ _, ?_⟩
              intro a ha b hb
              rcases List.mem_singleton.mp hb with rfl
              exact hcross a ha
            · intro x hx
              rcases List.mem_cons.mp hx with rfl | hx
              · exact hnm
              · exact hz x (List.mem_cons_of_mem _ hx)
            · intro a ha x hx
              rcases List.mem_cons.mp ha with rfl | ha
              · show linRel (p0, m0 + mult) x
                unfold linRel
                rw [hp0eq]
                exact hheadRel x hx
              · exact hrel a (List.mem_cons_of_mem _ ha) x (List.mem_cons_of_mem _ hx)

/-- The merge loop is the identity on a canonical input (`acc` reversed is
the part of the input already consumed). -/
theorem normFoldGo_id :
    ∀ (l acc : Linear),
      (acc.reverse ++ l).Pairwise linGt →
      (∀ x ∈ acc.reverse ++ l, x.2 ≠ 0) →
      normFoldGo acc l = acc.reverse ++ l := by
  intro l
  induction l with
  | nil =>
    intro acc _ _
    rw [normFoldGo, List.append_nil]
  | cons hd rest ih =>
    obtain ⟨part, mult⟩ := hd
    intro acc hpw hz
    have hm : mult ≠ 0 :=
      hz (part, mult) (List.mem_append.mpr (Or.inr (List.mem_cons_self _ _)))
    rcases acc with _ | ⟨⟨p0, m0⟩, accRest⟩
    · simp only [normFoldGo]
      rw [if_neg hm]
      have hres := ih [(part, mult)] (by simpa using hpw) (by simpa using hz)
      rw [hres]
      simp
    · simp only [normFoldGo]
      rw [if_neg hm]
      have hp0mem : (p0, m0) ∈ ((p0, m0) :: accRest).reverse :=
        List.mem_reverse.mpr (List.mem_cons_self _ _)
      have hgt : linGt (p0, m0) (part, mult) :=
        (List.pairwise_append.mp hpw).2.2 (p0, m0) hp0mem (part, mult)
          (List.mem_cons_self _ _)
      have hcz : compareLists p0 part ≠ 0 := by
        have h1 : 0 < compareLists p0 part := hgt
        omega
      rw [if_pos hcz]
      have hlist : ((part, mult) :: (p0, m0) :: accRest).reverse ++ rest =
          ((p0, m0) :: accRest).reverse ++ ((part, mult) :: rest) := by
        rw [List.reverse_cons, List.append_assoc]
        rfl
      have hres := ih ((part, mult) :: (p0, m0) :: accRest)
        (by rw [hlist]; exact hpw) (by rw [hlist]; exact hz)
      rw [hres, hlist]

/-- C9: `algebraNormalise` is idempotent — normalising an
already-normalised linear combination is a no-op. -/
theorem algebraNormalise_idempotent (lin : Linear) :
    algebraNormalise (algebraNormalise lin) = algebraNormalise lin := by
  haveI : IsTotal (List Nat × Int) linRel := ⟨linRel_total⟩
  haveI : IsTrans (List Nat × Int) linRel :=
    ⟨fun a b c => compareLists_trans_nonneg a.1 b.1 c.1⟩
  have hsorted : List.Sorted linRel (List.insertionSort linRel lin) :=
    List.sorted_insertionSort linRel lin
  have hcanon : LinearCanon (algebraNormalise lin) := by
    rw [algebraNormalise]
    exact normFoldGo_canon (List.insertionSort linRel lin) [] hsorted
      (by simp) (by simp) (by simp)
  rcases hcanon with ⟨hpw, hz⟩
  have hsorted2 : List.Sorted linRel (algebraNormalise lin) := by
    refine List.Pairwise.imp ?_ hpw
    intro a b hab
    have h1 : 0 < compareLists a.1 b.1 := hab
    show 0 ≤ compareLists a.1 b.1
    omega
  show normFoldGo [] (List.insertionSort linRel (algebraNormalise lin)) = algebraNormalise lin
  rw [List.Sorted.insertionSort_eq hsorted2]
  have hres := normFoldGo_id (algebraNormalise lin) [] (by simpa using hpw)
    (by simpa using hz)
  simpa using hres

/-- C6: the spec's concrete cases.  `expandInGL(3, [1])` yields exactly the
set `{[1],[2],[3]}` (here even in that order); `expandInGL(3, [1,1])`
yields exactly the six claimed vertices (as a set — the traversal emits
them in DFS order); `dimensionInGL(3, [2,1]) = 8`; and
`tensorPartitions(2, [1], [1])` yields exactly the multiset
`{[2], [1,1]}`. -/
theorem spec_concrete_cases :
    expandInGL 3 [1] = some [[1], [2], [3]] ∧
    (∃ l, expandInGL 3 [1, 1] = some l ∧
      l.Perm [[1, 1], [2, 1], [2, 2], [3, 1], [3, 2], [3, 3]]) ∧
    dimensionInGL 3 [2, 1] = some 8 ∧
    (∃ l, tensorPartitions 2 [1] [1] = some l ∧ l.Perm [[2], [1, 1]]) :=
  ⟨by decide,
    ⟨[[1, 1], [2, 1], [2, 2], [3, 2], [3, 3], [3, 1]], by decide, by decide⟩,
    by decide,
    ⟨[[2], [1, 1]], by decide, by decide⟩⟩

/-- C7: the lattice-word recogniser never throws — on any input it returns
either a partition or the distinguished `null` value; `hwToPartition`
throws exactly when its input is not a lattice word; and `visitGLnCrystal`
throws exactly when its start vertex is not a lattice word or its height
exceeds `n`. -/
theorem error_handling_contract :
    (∀ sofar w : List Nat, (∃ p, latticeWordToMaybePartition sofar w = some p) ∨
        latticeWordToMaybePartition sofar w = none) ∧
    (∀ v : Vertex, hwToPartition v = none ↔ isLatticeWord v = false) ∧
    (∀ (n : Nat) (start : Vertex),
      visitGLnCrystal n start = RunResult.crash ↔
        ¬(isLatticeWord start = true ∧ vertexHeight start ≤ n)) := by
  refine ⟨?_, ?_, ?_⟩
  · intro sofar w
    rcases h : latticeWordToMaybePartition sofar w with _ | p
    · exact Or.inr rfl
    · exact Or.inl ⟨p, rfl⟩
  · intro v
    rw [hwToPartition, isLatticeWord]
    rcases h : latticeWordToMaybePartition [] v with _ | p
    · simp
    · simp
  · intro n start
    constructor
    · intro h
      by_contra hc
      rw [visitGLnCrystal, if_pos hc] at h
      rcases hds : dfsRun n (fuelBound n start) (initState start) with ⟨s0, c0⟩
      rw [hds] at h
      exact absurd h (by simp)
    · intro h
      rw [visitGLnCrystal, if_neg h]

/-- Witness for C10 at `n = 3`, `start = [1, 1]`. -/
theorem visited_vertices_length_letters_witness :
    visitGLnCrystal 3 [1, 1] =
      RunResult.ran [[1, 1], [2, 1], [2, 2], [3, 2], [3, 3], [3, 1]] true ∧
    ((∀ v ∈ [[1, 1], [2, 1], [2, 2], [3, 2], [3, 3], [3, 1]],
        v.length = ([1, 1] : List Nat).length ∧ ∀ a ∈ v, 1 ≤ a ∧ a ≤ 3) ∧
      expandInGL 3 [1, 1] = some [[1, 1], [2, 1], [2, 2], [3, 2], [3, 3], [3, 1]]) :=
  ⟨by decide,
    visited_vertices_length_letters 3 [1, 1] _ true (by decide)⟩
